import Mathlib

/-!
Verification of the QuickReader content script (`src/contentScript.js`).

The script transforms text in a document tree by wrapping a leading portion
of each word in a `<b quickreader-rendered="true">` span, tags ancestor
containers at configured depths with a `quickreader-container` attribute,
and reverts transformations container-wise with a flat whole-tree fallback.

The embedding below models the document tree as a mutual inductive
(`Dom`/`DomList`), text as `List Char` (one entry per Unicode code point),
and each source function as a Lean function translated from the script.
Chrome-platform concerns (actual DOM attachment, observers, timers, storage
I/O) are modelled by explicit state and step relations.
-/

namespace QuickReader

/-- JavaScript `\s` whitespace class (the code points matched by `/\s/`):
space, tab, LF, VT, FF, CR, NBSP, and the Unicode space separators used by
the word-splitting regex `/(\s+|\S+)/g` in `renderElement.processNode`. -/
def jsWs (c : Char) : Bool :=
  let n := c.toNat
  n = 0x20 || n = 0x9 || n = 0xA || n = 0xB || n = 0xC || n = 0xD ||
  n = 0xA0 || n = 0x1680 || (0x2000 ≤ n && n ≤ 0x200A) ||
  n = 0x2028 || n = 0x2029 || n = 0x202F || n = 0x205F || n = 0x3000 || n = 0xFEFF

/-- Every code-point interval of the Unicode `Symbol` general categories
(Sm, Sc, Sk, So; Unicode 14.0 category data) below U+1F000. No Symbol
code point exists above U+1FFFF, and U+1F000-U+1FFFF is matched wholesale
by the explicit range written in the segmentation regex. -/
def symbolRanges : List (Nat × Nat) := [
  (0x24, 0x24), (0x2B, 0x2B), (0x3C, 0x3E), (0x5E, 0x5E), (0x60, 0x60),
  (0x7C, 0x7C), (0x7E, 0x7E), (0xA2, 0xA6), (0xA8, 0xA9), (0xAC, 0xAC),
  (0xAE, 0xB1), (0xB4, 0xB4), (0xB8, 0xB8), (0xD7, 0xD7), (0xF7, 0xF7),
  (0x2C2, 0x2C5), (0x2D2, 0x2DF), (0x2E5, 0x2EB), (0x2ED, 0x2ED), (0x2EF, 0x2FF),
  (0x375, 0x375), (0x384, 0x385), (0x3F6, 0x3F6), (0x482, 0x482), (0x58D, 0x58F),
  (0x606, 0x608), (0x60B, 0x60B), (0x60E, 0x60F), (0x6DE, 0x6DE), (0x6E9, 0x6E9),
  (0x6FD, 0x6FE), (0x7F6, 0x7F6), (0x7FE, 0x7FF), (0x888, 0x888), (0x9F2, 0x9F3),
  (0x9FA, 0x9FB), (0xAF1, 0xAF1), (0xB70, 0xB70), (0xBF3, 0xBFA), (0xC7F, 0xC7F),
  (0xD4F, 0xD4F), (0xD79, 0xD79), (0xE3F, 0xE3F), (0xF01, 0xF03), (0xF13, 0xF13),
  (0xF15, 0xF17), (0xF1A, 0xF1F), (0xF34, 0xF34), (0xF36, 0xF36), (0xF38, 0xF38),
  (0xFBE, 0xFC5), (0xFC7, 0xFCC), (0xFCE, 0xFCF), (0xFD5, 0xFD8), (0x109E, 0x109F),
  (0x1390, 0x1399), (0x166D, 0x166D), (0x17DB, 0x17DB), (0x1940, 0x1940), (0x19DE, 0x19FF),
  (0x1B61, 0x1B6A), (0x1B74, 0x1B7C), (0x1FBD, 0x1FBD), (0x1FBF, 0x1FC1), (0x1FCD, 0x1FCF),
  (0x1FDD, 0x1FDF), (0x1FED, 0x1FEF), (0x1FFD, 0x1FFE), (0x2044, 0x2044), (0x2052, 0x2052),
  (0x207A, 0x207C), (0x208A, 0x208C), (0x20A0, 0x20C0), (0x2100, 0x2101), (0x2103, 0x2106),
  (0x2108, 0x2109), (0x2114, 0x2114), (0x2116, 0x2118), (0x211E, 0x2123), (0x2125, 0x2125),
  (0x2127, 0x2127), (0x2129, 0x2129), (0x212E, 0x212E), (0x213A, 0x213B), (0x2140, 0x2144),
  (0x214A, 0x214D), (0x214F, 0x214F), (0x218A, 0x218B), (0x2190, 0x2307), (0x230C, 0x2328),
  (0x232B, 0x2426), (0x2440, 0x244A), (0x249C, 0x24E9), (0x2500, 0x2767), (0x2794, 0x27C4),
  (0x27C7, 0x27E5), (0x27F0, 0x2982), (0x2999, 0x29D7), (0x29DC, 0x29FB), (0x29FE, 0x2B73),
  (0x2B76, 0x2B95), (0x2B97, 0x2BFF), (0x2CE5, 0x2CEA), (0x2E50, 0x2E51), (0x2E80, 0x2E99),
  (0x2E9B, 0x2EF3), (0x2F00, 0x2FD5), (0x2FF0, 0x2FFB), (0x3004, 0x3004), (0x3012, 0x3013),
  (0x3020, 0x3020), (0x3036, 0x3037), (0x303E, 0x303F), (0x309B, 0x309C), (0x3190, 0x3191),
  (0x3196, 0x319F), (0x31C0, 0x31E3), (0x3200, 0x321E), (0x322A, 0x3247), (0x3250, 0x3250),
  (0x3260, 0x327F), (0x328A, 0x32B0), (0x32C0, 0x33FF), (0x4DC0, 0x4DFF), (0xA490, 0xA4C6),
  (0xA700, 0xA716), (0xA720, 0xA721), (0xA789, 0xA78A), (0xA828, 0xA82B), (0xA836, 0xA839),
  (0xAA77, 0xAA79), (0xAB5B, 0xAB5B), (0xAB6A, 0xAB6B), (0xFB29, 0xFB29), (0xFBB2, 0xFBC2),
  (0xFD40, 0xFD4F), (0xFDCF, 0xFDCF), (0xFDFC, 0xFDFF), (0xFE62, 0xFE62), (0xFE64, 0xFE66),
  (0xFE69, 0xFE69), (0xFF04, 0xFF04), (0xFF0B, 0xFF0B), (0xFF1C, 0xFF1E), (0xFF3E, 0xFF3E),
  (0xFF40, 0xFF40), (0xFF5C, 0xFF5C), (0xFF5E, 0xFF5E), (0xFFE0, 0xFFE6), (0xFFE8, 0xFFEE),
  (0xFFFC, 0xFFFD), (0x10137, 0x1013F), (0x10179, 0x10189), (0x1018C, 0x1018E), (0x10190, 0x1019C),
  (0x101A0, 0x101A0), (0x101D0, 0x101FC), (0x10877, 0x10878), (0x10AC8, 0x10AC8), (0x1173F, 0x1173F),
  (0x11FD5, 0x11FF1), (0x16B3C, 0x16B3F), (0x16B45, 0x16B45), (0x1BC9C, 0x1BC9C), (0x1CF50, 0x1CFC3),
  (0x1D000, 0x1D0F5), (0x1D100, 0x1D126), (0x1D129, 0x1D164), (0x1D16A, 0x1D16C), (0x1D183, 0x1D184),
  (0x1D18C, 0x1D1A9), (0x1D1AE, 0x1D1EA), (0x1D200, 0x1D241), (0x1D245, 0x1D245), (0x1D300, 0x1D356),
  (0x1D6C1, 0x1D6C1), (0x1D6DB, 0x1D6DB), (0x1D6FB, 0x1D6FB), (0x1D715, 0x1D715), (0x1D735, 0x1D735),
  (0x1D74F, 0x1D74F), (0x1D76F, 0x1D76F), (0x1D789, 0x1D789), (0x1D7A9, 0x1D7A9), (0x1D7C3, 0x1D7C3),
  (0x1D800, 0x1D9FF), (0x1DA37, 0x1DA3A), (0x1DA6D, 0x1DA74), (0x1DA76, 0x1DA83), (0x1DA85, 0x1DA86),
  (0x1E14F, 0x1E14F), (0x1E2FF, 0x1E2FF), (0x1ECAC, 0x1ECAC), (0x1ECB0, 0x1ECB0), (0x1ED2E, 0x1ED2E),
  (0x1EEF0, 0x1EEF1)]

/-- Embeds the character class of the Unicode segmentation regex in
`renderElement.processNode`:
`/([\p{Emoji}\p{Symbol}\p{Extended_Pictographic}\u{1F000}-\u{1FFFF}])/u`.
The class is the union of the `Symbol` categories (`symbolRanges`), the
explicit range U+1F000-U+1FFFF, and the members of
`Emoji`/`Extended_Pictographic` that fall outside the Symbol categories
and below U+1F000: `#`, `*`, the digits `0`-`9`, U+203C, U+2049, U+2139,
U+3030 and U+303D. -/
def emojiPat (c : Char) : Bool :=
  let n := c.toNat
  n = 0x23 || n = 0x2A || (0x30 ≤ n && n ≤ 0x39) ||
  n = 0x203C || n = 0x2049 || n = 0x2139 || n = 0x3030 || n = 0x303D ||
  (0x1F000 ≤ n && n ≤ 0x1FFFF) ||
  symbolRanges.any (fun r => r.1 ≤ n && n ≤ r.2)

/-- JavaScript `String.prototype.trim`: strip leading and trailing
whitespace. -/
def jsTrim (l : List Char) : List Char :=
  ((l.dropWhile jsWs).reverse.dropWhile jsWs).reverse

/-- Helper for `splitEmoji`: JavaScript `String.prototype.split` with a
single-character capturing pattern yields the text between delimiters
interleaved with each delimiter character as its own piece. -/
def splitEmojiAux : List Char → List Char → List (List Char)
  | [], acc => [acc.reverse]
  | c :: rest, acc =>
      if emojiPat c then acc.reverse :: [c] :: splitEmojiAux rest []
      else splitEmojiAux rest (c :: acc)

/-- Embeds `text.split(unicodePattern).filter(segment => segment !== '')` from
`renderElement.processNode`. -/
def splitEmoji (l : List Char) : List (List Char) :=
  (splitEmojiAux l []).filter (fun s => s ≠ [])

/-- Embeds `segment.match(/(\s+|\S+)/g)` from `renderElement.processNode`:
maximal runs of whitespace or of non-whitespace characters. -/
def tokens : List Char → List (List Char)
  | [] => []
  | c :: rest =>
      match tokens rest with
      | [] => [[c]]
      | [] :: ts => [c] :: [] :: ts
      | (d :: t) :: ts =>
          if jsWs c = jsWs d then (c :: d :: t) :: ts
          else [c] :: (d :: t) :: ts

/-- The emphasised-prefix length of `renderWord` for `boldingMode = 'half'`
(and for unknown modes): `middleIndex + (text.length % 2)` with
`middleIndex = Math.floor(text.length / 2)`. -/
def boldLenHalf (n : Nat) : Nat := n / 2 + n % 2

/-- Embeds `Math.round(n * 0.3)` for a natural `n`, as computed by the script in
IEEE-754 doubles. For every `n` the clamp `Math.min(7, Math.max(1, ·))`
can observe (`n ≤ 23`; beyond that both sides clamp to 7) the double
computation agrees with the exact rational rounding half-up, which is
`(3 * n + 5) / 10` in natural division. -/
def jsRound30 (n : Nat) : Nat := (3 * n + 5) / 10

/-- The emphasised-prefix length of `renderWord` for
`boldingMode = 'start'`: `Math.min(7, Math.max(1, Math.round(len * 0.3)))`. -/
def boldLenStart (n : Nat) : Nat := min 7 (max 1 (jsRound30 n))

/-- Container status encoded in the `quickreader-container` attribute:
absent, `"inactive"`, or `"active"`. -/
inductive CStatus where
  | untagged
  | inactive
  | active
deriving DecidableEq, Repr

mutual

/-- A document node: a text node, a generated
`<b quickreader-rendered="true">` span (which always holds a single text
run), or an element with a tag name, container status, an exclusion flag
(whether the element itself matches the sidebar/overlay/dialog selectors of
`isSideOrInteractiveContent`), and children. -/
inductive Dom where
  | textN : List Char → Dom
  | boldR : List Char → Dom
  | elemN : String → CStatus → Bool → DomList → Dom

/-- A sibling list of document nodes. -/
inductive DomList where
  | nil : DomList
  | cons : Dom → DomList → DomList

end

/-- Append two sibling lists. -/
def appendL : DomList → DomList → DomList
  | .nil, l => l
  | .cons d ds, l => .cons d (appendL ds l)

mutual

/-- Embeds `node.textContent`: concatenation of all text runs in a node. -/
def textContentD : Dom → List Char
  | .textN s => s
  | .boldR s => s
  | .elemN _ _ _ cs => textContentL cs

/-- The `textContent` of a sibling list. -/
def textContentL : DomList → List Char
  | .nil => []
  | .cons d ds => textContentD d ++ textContentL ds

end

mutual

/-- Embeds `node.querySelector('b[quickreader-rendered="true"]') !== null`
extended to the node itself: whether the subtree contains a generated span. -/
def containsBoldD : Dom → Bool
  | .textN _ => false
  | .boldR _ => true
  | .elemN _ _ _ cs => containsBoldL cs

/-- Whether a sibling list contains a generated span. -/
def containsBoldL : DomList → Bool
  | .nil => false
  | .cons d ds => containsBoldD d || containsBoldL ds

end

/-- Model of parsing the reassembled markup string through
`tempDiv.innerHTML`, valid for rendered strings that contain no raw
markup-significant characters: consecutive pieces of plain text become a
single text node and empty pieces disappear. The model does not represent
HTML tokenization itself: a raw `<` followed by a letter — which can occur,
since `<` carries the `Symbol` property and passes through the
segmentation — is consumed as a start tag by the platform's parser and
destroys text, and a raw `&` inside a word can be decoded as a character
reference. See `renderedStr` for the exact string the code hands to the
parser. -/
def normalizeTexts : DomList → DomList
  | .nil => .nil
  | .cons (.textN s) rest =>
      if s = [] then normalizeTexts rest
      else
        match normalizeTexts rest with
        | .cons (.textN t) r2 => .cons (.textN (s ++ t)) r2
        | r => .cons (.textN s) r
  | .cons d rest => .cons d (normalizeTexts rest)

/-- Embeds `renderWord` from the script, at the node level: the returned markup
`<b>prefix</b>rest` parses to a span node followed by a text node (the
`quickreader-rendered` attribute is set on every generated `<b>` by
`renderElement.processNode`). Short or blank words are returned as plain
(trimmed) text. Branches mirror the source: `'start'`, `'half'`, and the
unknown-mode fallback which behaves like `'half'`. -/
def renderWordNodes (bm : String) (w : List Char) : DomList :=
  let t := jsTrim w
  if t.length < 2 then .cons (.textN t) .nil
  else if bm = "start" then
    let k := boldLenStart t.length
    .cons (.boldR (t.take k)) (.cons (.textN (t.drop k)) .nil)
  else if bm = "half" then
    let k := boldLenHalf t.length
    .cons (.boldR (t.take k)) (.cons (.textN (t.drop k)) .nil)
  else
    let k := boldLenHalf t.length
    .cons (.boldR (t.take k)) (.cons (.textN (t.drop k)) .nil)

/-- One token of a non-emoji segment: words (tokens containing a
non-whitespace character, `word.match(/\S/)`) go through `renderWord`,
whitespace runs pass through. -/
def wordNode (bm : String) (w : List Char) : DomList :=
  if w.any (fun c => ! jsWs c) then renderWordNodes bm w
  else .cons (.textN w) .nil

/-- All tokens of a non-emoji segment. -/
def tokensNodes (bm : String) : List (List Char) → DomList
  | [] => .nil
  | w :: ws => appendL (wordNode bm w) (tokensNodes bm ws)

/-- One segment produced by the Unicode split: segments containing a
character of the pattern (`unicodePattern.test(segment)`) pass through
unmodified; the rest are tokenised and word-transformed. -/
def segNodes (bm : String) (seg : List Char) : DomList :=
  if seg.any emojiPat then .cons (.textN seg) .nil
  else tokensNodes bm (tokens seg)

/-- All segments of a text run. -/
def segsNodes (bm : String) : List (List Char) → DomList
  | [] => .nil
  | s :: ss => appendL (segNodes bm s) (segsNodes bm ss)

/-- The full text-node transformation of `renderElement.processNode`:
split on the Unicode pattern, tokenise, word-transform, reassemble, and
parse the resulting markup into sibling nodes. Faithful to the code when
the run contains no raw markup-significant characters (`<`, `&`); for runs
containing them the platform's `innerHTML` re-parse diverges (see
`normalizeTexts` and `renderedStr`). -/
def transformTextNodes (bm : String) (t : List Char) : DomList :=
  normalizeTexts (segsNodes bm (splitEmoji t))

/-- Convenience: the character list of a string literal. -/
def str (s : String) : List Char := s.data

/-- Embeds `renderWord` exactly at the string level: the returned markup is
`<b>` ++ prefix ++ `</b>` ++ rest, with the same trim, short-word and mode
branches as the source. -/
def renderWordStr (bm : String) (w : List Char) : List Char :=
  let t := jsTrim w
  if t.length < 2 then t
  else if bm = "start" then
    let k := boldLenStart t.length
    str "<b>" ++ t.take k ++ str "</b>" ++ t.drop k
  else if bm = "half" then
    let k := boldLenHalf t.length
    str "<b>" ++ t.take k ++ str "</b>" ++ t.drop k
  else
    let k := boldLenHalf t.length
    str "<b>" ++ t.take k ++ str "</b>" ++ t.drop k

/-- One token's contribution to the `rendered` accumulator: words go
through `renderWord`, whitespace runs are appended verbatim. -/
def wordStr (bm : String) (w : List Char) : List Char :=
  if w.any (fun c => ! jsWs c) then renderWordStr bm w else w

/-- Embeds the `rendered` string of `renderElement.processNode` exactly:
the concatenation, over the Unicode-split segments, of pattern segments
verbatim and of the word-transformed tokens of the other segments. This is
the string the code assigns to `tempDiv.innerHTML` — with no escaping, so
any raw `<` passed through by the split reaches the HTML parser. -/
def renderedStr (bm : String) (t : List Char) : List Char :=
  ((splitEmoji t).map (fun seg =>
      if seg.any emojiPat then seg
      else ((tokens seg).map (wordStr bm)).flatten)).flatten



mutual

/-- Embeds `renderElement.processNode` on one node, given the bolding mode,
rendering mode and whether some ancestor matches
`isSideOrInteractiveContent` (`ue`). A text node may be replaced by several
siblings, so the result is a sibling list, together with the flag used to
model the post-replacement `parentElement.closest('[quickreader-container]')`
promotion: the flag is true when this subtree contains a replaced text node
whose nearest tagged ancestor has not yet been found. A generated span
never has element children, so `node.closest('b[quickreader-rendered]')`
is captured by the span case itself. -/
def procNode (rm bm : String) (ue : Bool) : Dom → DomList × Bool
  | .textN s =>
      if rm = "on" then
        if jsTrim s = [] || ue then (.cons (.textN s) .nil, false)
        else (transformTextNodes bm s, true)
      else (.cons (.textN s) .nil, false)
  | .boldR s => (.cons (.boldR s) .nil, false)
  | .elemN t st ex cs =>
      if containsBoldL cs then (.cons (.elemN t st ex cs) .nil, false)
      else
        let r := procList rm bm (ue || ex) cs
        match st with
        | .untagged => (.cons (.elemN t .untagged ex r.1) .nil, r.2)
        | .inactive =>
            if r.2 then (.cons (.elemN t .active ex r.1) .nil, false)
            else (.cons (.elemN t .inactive ex r.1) .nil, false)
        | .active =>
            if r.2 then (.cons (.elemN t .active ex r.1) .nil, false)
            else (.cons (.elemN t .active ex r.1) .nil, false)

/-- Embeds `Array.from(node.childNodes).forEach(processNode)`: the child list is
snapshotted before processing, so each original child is processed once and
its replacement spliced in place. -/
def procList (rm bm : String) (ue : Bool) : DomList → DomList × Bool
  | .nil => (.nil, false)
  | .cons d ds =>
      let r1 := procNode rm bm ue d
      let r2 := procList rm bm ue ds
      (appendL r1.1 r2.1, r1.2 || r2.2)

end

/-- First node of a sibling list, with a default. -/
def firstOr (l : DomList) (dflt : Dom) : Dom :=
  match l with
  | .cons d _ => d
  | .nil => dflt

/-- Embeds `renderElement(element)`: guarded by rendering mode `'on'`, no
generated span in or above the element, and the element not being
side/interactive content; then `processNode(element)`. An element target
always stays a single node. -/
def renderTargetD (rm bm : String) (ue : Bool) (d : Dom) : Dom × Bool :=
  match d with
  | .elemN t st ex cs =>
      if rm = "on" && ! containsBoldL cs && ! (ue || ex) then
        let r := procNode rm bm ue (.elemN t st ex cs)
        (firstOr r.1 (.elemN t st ex cs), r.2)
      else (.elemN t st ex cs, false)
  | d => (d, false)

/-- Child at an index in a sibling list. -/
def getIdx : DomList → Nat → Option Dom
  | .nil, _ => none
  | .cons d _, 0 => some d
  | .cons _ ds, n + 1 => getIdx ds n

/-- Replace the child at an index in a sibling list. -/
def setIdx : DomList → Nat → Dom → DomList
  | .nil, _, _ => .nil
  | .cons _ ds, 0, x => .cons x ds
  | .cons d ds, n + 1, x => .cons d (setIdx ds n x)

/-- Embeds `renderElement` applied to the element reached by a child-index path
from the document root. The promotion flag travels up the ancestor chain:
`closest('[quickreader-container]')` from the replaced text node crosses
the target element's boundary, so the nearest tagged ancestor on the path
is set to `active` and absorbs the flag. -/
def renderAtAux (rm bm : String) (ue : Bool) : List Nat → Dom → Dom × Bool
  | [], d => renderTargetD rm bm ue d
  | i :: rest, .elemN t st ex cs =>
      match getIdx cs i with
      | none => (.elemN t st ex cs, false)
      | some c =>
          let r := renderAtAux rm bm (ue || ex) rest c
          let cs' := setIdx cs i r.1
          match st with
          | .untagged => (.elemN t .untagged ex cs', r.2)
          | .inactive =>
              if r.2 then (.elemN t .active ex cs', false)
              else (.elemN t .inactive ex cs', false)
          | .active =>
              if r.2 then (.elemN t .active ex cs', false)
              else (.elemN t .active ex cs', false)
  | _ :: _, d => (d, false)

/-- The document-level effect of `renderElement` on the element at `path`. -/
def renderAtDoc (rm bm : String) (path : List Nat) (d : Dom) : Dom :=
  (renderAtAux rm bm false path d).1

/-- The span-unwrapping loop shared by the flat fallback and the
active-container path of `processContainers`: each generated span is
replaced by a text node holding its text, and when the span's next sibling
is a text node the two are merged (the merged sibling is removed and not
revisited). Spans inside elements are found in document order
(`querySelectorAll`). -/
def unboldL : DomList → DomList
  | .nil => .nil
  | .cons (.boldR s) (.cons (.textN t) rest) => .cons (.textN (s ++ t)) (unboldL rest)
  | .cons (.boldR s) rest => .cons (.textN s) (unboldL rest)
  | .cons (.textN s) rest => .cons (.textN s) (unboldL rest)
  | .cons (.elemN t st ex cs) rest => .cons (.elemN t st ex (unboldL cs)) (unboldL rest)

/-- The flat fallback applied to the whole document. -/
def unboldTop : Dom → Dom
  | .boldR s => .textN s
  | .elemN t st ex cs => .elemN t st ex (unboldL cs)
  | d => d

/-- The shallow-DOM unrendering of `initializeQuickReader`:
`b.replaceWith(b.textContent)` for every generated span, with no sibling
merging. -/
def naiveUnbL : DomList → DomList
  | .nil => .nil
  | .cons (.boldR s) rest => .cons (.textN s) (naiveUnbL rest)
  | .cons (.textN s) rest => .cons (.textN s) (naiveUnbL rest)
  | .cons (.elemN t st ex cs) rest => .cons (.elemN t st ex (naiveUnbL cs)) (naiveUnbL rest)

/-- Shallow-DOM unrendering applied to the whole document. -/
def naiveUnbTop : Dom → Dom
  | .boldR s => .textN s
  | .elemN t st ex cs => .elemN t st ex (naiveUnbL cs)
  | d => d

mutual

/-- The container pass of `processContainers`, with the captured
`quickreader-container` NodeList modelled by a document-order walk:
an inactive container loses its attribute and its descendants (still
attached) are processed; an active container with spans is replaced by a
clone in which every span is unwrapped and its own attribute cleared, while
its descendants keep whatever attributes the clone copied; an active
container without spans is skipped (its attribute survives) and its
descendants are processed. The boolean is `hasActiveContainers`. -/
def pcPassD : Dom → Dom × Bool
  | .textN s => (.textN s, false)
  | .boldR s => (.boldR s, false)
  | .elemN t st ex cs =>
      match st with
      | .untagged =>
          let r := pcPassL cs
          (.elemN t .untagged ex r.1, r.2)
      | .inactive =>
          let r := pcPassL cs
          (.elemN t .untagged ex r.1, r.2)
      | .active =>
          if containsBoldL cs then (.elemN t .untagged ex (unboldL cs), true)
          else
            let r := pcPassL cs
            (.elemN t .active ex r.1, true)

/-- Container pass over a sibling list. -/
def pcPassL : DomList → DomList × Bool
  | .nil => (.nil, false)
  | .cons d ds =>
      let r1 := pcPassD d
      let r2 := pcPassL ds
      (.cons r1.1 r2.1, r1.2 || r2.2)

end

mutual

/-- Embeds `document.querySelectorAll('[quickreader-container]').length > 0`. -/
def hasContainerD : Dom → Bool
  | .textN _ => false
  | .boldR _ => false
  | .elemN _ st _ cs =>
      (match st with
       | .untagged => false
       | _ => true) || hasContainerL cs

/-- Whether a sibling list contains a tagged container. -/
def hasContainerL : DomList → Bool
  | .nil => false
  | .cons d ds => hasContainerD d || hasContainerL ds

end

/-- Embeds `processContainers()`: with no tagged container anywhere, the flat
fallback unwraps every generated span in the document; otherwise the
container pass runs, and if it found no active container the flat fallback
additionally runs on the result. -/
def processContainers (d : Dom) : Dom :=
  if hasContainerD d then
    let r := pcPassD d
    if r.2 then r.1 else unboldTop r.1
  else unboldTop d

/-- The tag allow-list `semanticElements` from the script. -/
def semanticElements : List String :=
  ["p", "h1", "h2", "h3", "h4", "h5", "h6", "span", "article", "section",
   "main", "div", "li", "td", "th", "body"]

mutual

/-- Whether an element node sits at child-depth `target` below the body
(the body's element children are at depth 1), as selected by
`document.body.querySelectorAll(':scope > * > ... > *')`. -/
def existsElemAtD (target cur : Nat) : Dom → Bool
  | .textN _ => false
  | .boldR _ => cur = target
  | .elemN _ _ _ cs => cur = target || existsElemAtL target (cur + 1) cs

/-- Depth query over a sibling list. -/
def existsElemAtL (target cur : Nat) : DomList → Bool
  | .nil => false
  | .cons d ds => existsElemAtD target cur d || existsElemAtL target cur ds

end

mutual

/-- The tagging walk of `tagPotentialContainers`: every element at depth 3
or 4 (the configured `CONTAINER_LEVELS`) whose tag is in the allow-list and
which is not side/interactive content gets
`quickreader-container="inactive"` — unconditionally, overwriting any
previous status. Other nodes are unchanged. -/
def tagPassD (cur : Nat) (ancExcl : Bool) : Dom → Dom
  | .textN s => .textN s
  | .boldR s => .boldR s
  | .elemN t st ex cs =>
      let se := ancExcl || ex
      let st' :=
        if (cur = 3 || cur = 4) && semanticElements.contains t && ! se then
          CStatus.inactive
        else st
      .elemN t st' ex (tagPassL (cur + 1) se cs)

/-- Tagging walk over a sibling list. -/
def tagPassL (cur : Nat) (ancExcl : Bool) : DomList → DomList
  | .nil => .nil
  | .cons d ds => .cons (tagPassD cur ancExcl d) (tagPassL cur ancExcl ds)

end

/-- Embeds `tagPotentialContainers()`: if no element exists at depth 3 or 4 below
the body the DOM is shallow and nothing is tagged; otherwise the tagging
walk runs (the body itself, at depth 0, is never a candidate). -/
def tagContainers (d : Dom) : Dom :=
  match d with
  | .elemN t st ex cs =>
      if existsElemAtL 3 1 cs || existsElemAtL 4 1 cs then
        .elemN t st ex (tagPassL 1 ex cs)
      else .elemN t st ex cs
  | d => d

/-- The synchronous tree effect of `initializeQuickReader()`: with no
element at depth 2 below the body (`:scope > * > *` empty) every generated
span is unwrapped directly with no merging; otherwise
`tagPotentialContainers()` runs (observer registration changes no tree
state). -/
def initQR (d : Dom) : Dom :=
  match d with
  | .elemN t st ex cs =>
      if existsElemAtL 2 1 cs then tagContainers (.elemN t st ex cs)
      else naiveUnbTop (.elemN t st ex cs)
  | d => d

/-- Process-wide state: the two mode globals and the document. -/
structure Sys where
  mode : String
  bmode : String
  doc : Dom

/-- The `chrome.runtime.onMessage` listener for `updateSettings`: store the
new mode values, then revert (`processContainers`) when the rendering mode
is `'off'` and re-initialize otherwise. -/
def onMessage (s : Sys) (rm bm : String) : Sys :=
  { mode := rm, bmode := bm,
    doc := if rm = "off" then processContainers s.doc else initQR s.doc }

/-- One asynchronous callback of the system: a settings message, a drained
transform request (the drain loop re-checks `renderingMode === 'on'`), or a
drained revert request (the drain loop re-checks the mode and that the
queued element still carries a generated span). -/
inductive Step : Sys → Sys → Prop where
  | msg (s : Sys) (rm bm : String) : Step s (onMessage s rm bm)
  | transform (s : Sys) (path : List Nat) (h : s.mode = "on") :
      Step s ⟨s.mode, s.bmode, renderAtDoc s.mode s.bmode path s.doc⟩
  | revert (s : Sys) (h : s.mode = "off") (hb : containsBoldD s.doc = true) :
      Step s ⟨s.mode, s.bmode, processContainers s.doc⟩

/-- States reachable by the script: startup reads the persisted settings
and always calls `initializeQuickReader`, on a pristine page (no generated
span, no container attribute); afterwards any sequence of callbacks may
run. -/
inductive Reachable : Sys → Prop where
  | init (d : Dom) (rm bm : String)
      (hb : containsBoldD d = false) (hc : hasContainerD d = false) :
      Reachable ⟨rm, bm, initQR d⟩
  | step {s s' : Sys} : Reachable s → Step s s' → Reachable s'

/-- The container status of the element at a child-index path. -/
def statusAt : List Nat → Dom → Option CStatus
  | [], .elemN _ st _ _ => some st
  | [], _ => none
  | i :: rest, .elemN _ _ _ cs =>
      (match getIdx cs i with
       | some c => statusAt rest c
       | none => none)
  | _ :: _, _ => none

/-! ### The scheduler (`debounceRenderBold` / `debounceRenderUnbold`)

The two debounce functions share the single global `debounceTimer`: each
clears whatever timeout is pending and arms a new one whose callback drains
only that function's own queue. The queued element's drain-time guard
inputs are modelled as fields. -/

/-- A queued element, described by the guard inputs the drain loop reads:
whether `element.querySelector('b[quickreader-rendered="true"]')` finds a
span, whether `element.closest(...)` does, and whether the element is
side/interactive content. -/
structure SElem where
  hasBoldInside : Bool
  underBold : Bool
  excl : Bool
deriving DecidableEq, Repr

/-- Which debounce function armed the currently pending timeout. -/
inductive QOwner where
  | bold
  | unbold
deriving DecidableEq, Repr

/-- Scheduler state: the rendering mode, the two queues, and the pending
shared timer with its owner (`none` when no timeout is pending). -/
structure SchedState where
  renderingMode : String
  boldQueue : List SElem
  unboldQueue : List SElem
  timer : Option QOwner
deriving DecidableEq, Repr

/-- The drain-time guard of the `debounceRenderBold` callback. -/
def boldValid (mode : String) (e : SElem) : Bool :=
  mode == "on" && ! e.hasBoldInside && ! e.underBold && ! e.excl

/-- The drain-time guard of the `debounceRenderUnbold` callback. -/
def unboldValid (mode : String) (e : SElem) : Bool :=
  mode == "off" && (e.hasBoldInside || e.underBold)

/-- Embeds `debounceRenderBold(trigger, element)`: push the element (when one is
given), clear any pending timeout and arm a new one owned by the bold
callback. -/
def debounceRenderBold (s : SchedState) (e : Option SElem) : SchedState :=
  { s with
    boldQueue := match e with
      | some x => s.boldQueue ++ [x]
      | none => s.boldQueue,
    timer := some QOwner.bold }

/-- Embeds `debounceRenderUnbold(trigger, element)`: push and re-arm, owned by the
unbold callback. -/
def debounceRenderUnbold (s : SchedState) (e : Option SElem) : SchedState :=
  { s with
    unboldQueue := match e with
      | some x => s.unboldQueue ++ [x]
      | none => s.unboldQueue,
    timer := some QOwner.unbold }

/-- A DOM-mutating call made while a drain loop runs. -/
inductive Act where
  | renderElement (e : SElem)
  | processContainers
deriving DecidableEq, Repr

/-- The `while (boldQueue.length > 0)` loop of the bold callback: shift,
re-validate, render. -/
def drainBold (mode : String) : List SElem → List Act
  | [] => []
  | e :: rest =>
      if boldValid mode e then Act.renderElement e :: drainBold mode rest
      else drainBold mode rest

/-- The `while (unboldQueue.length > 0)` loop of the unbold callback:
shift, re-validate, call `processContainers`. -/
def drainUnbold (mode : String) : List SElem → List Act
  | [] => []
  | e :: rest =>
      if unboldValid mode e then Act.processContainers :: drainUnbold mode rest
      else drainUnbold mode rest

/-- Expiry of the shared debounce timer: only the callback of the function
that last armed the timer runs, and it drains only its own queue, leaving
the other queue untouched. Returns the new state and the DOM-mutating
calls in execution order. -/
def timerFire (s : SchedState) : SchedState × List Act :=
  match s.timer with
  | none => (s, [])
  | some QOwner.bold =>
      ({ s with boldQueue := [], timer := none },
       drainBold s.renderingMode s.boldQueue)
  | some QOwner.unbold =>
      ({ s with unboldQueue := [], timer := none },
       drainUnbold s.renderingMode s.unboldQueue)

/-! ### Checkers and concrete documents used by the claims -/

/-- The subtree at a child-index path contains a generated span (or is
one). -/
def containsBoldAtPath : List Nat → Dom → Bool
  | [], d => containsBoldD d
  | i :: rest, .elemN _ _ _ cs =>
      (match getIdx cs i with
       | some c => containsBoldAtPath rest c
       | none => false)
  | _ :: _, _ => false

mutual

/-- No generated span in the subtree contains a character of the Unicode
segmentation class. -/
def noEmojiBoldsD : Dom → Bool
  | .textN _ => true
  | .boldR s => s.all (fun c => ! emojiPat c)
  | .elemN _ _ _ cs => noEmojiBoldsL cs

/-- List version of `noEmojiBoldsD`. -/
def noEmojiBoldsL : DomList → Bool
  | .nil => true
  | .cons d ds => noEmojiBoldsD d && noEmojiBoldsL ds

end

mutual

/-- Part 1 of the claimed invariant, as a checker: every generated span
whose nearest tagged ancestor exists has that ancestor `active`. `ctx` is
the status of the innermost tagged ancestor seen so far (`none` when no
ancestor is tagged). -/
def p1D (ctx : Option CStatus) : Dom → Bool
  | .textN _ => true
  | .boldR _ =>
      match ctx with
      | some CStatus.inactive => false
      | _ => true
  | .elemN _ st _ cs =>
      match st with
      | CStatus.untagged => p1L ctx cs
      | st' => p1L (some st') cs

/-- List version of `p1D`. -/
def p1L (ctx : Option CStatus) : DomList → Bool
  | .nil => true
  | .cons d ds => p1D ctx d && p1L ctx ds

end

mutual

/-- The full claimed invariant: part 1 as in `p1D`, and part 2 — every
tagged container with no generated span beneath it is not `active`. -/
def invC4D (ctx : Option CStatus) : Dom → Bool
  | .textN _ => true
  | .boldR _ =>
      match ctx with
      | some CStatus.inactive => false
      | _ => true
  | .elemN _ st _ cs =>
      (match st with
       | CStatus.active => containsBoldL cs
       | _ => true) &&
      (match st with
       | CStatus.untagged => invC4L ctx cs
       | st' => invC4L (some st') cs)

/-- List version of `invC4D`. -/
def invC4L (ctx : Option CStatus) : DomList → Bool
  | .nil => true
  | .cons d ds => invC4D ctx d && invC4L ctx ds

end

/-- The claimed invariant over a whole document. -/
def invC4 (d : Dom) : Bool := invC4D none d

/-- A pristine page: body → div → div → p("hello"). The paragraph sits at
depth 3, so initialization tags it `inactive`. -/
def c3d0 : Dom :=
  .elemN "body" .untagged false (.cons
    (.elemN "div" .untagged false (.cons
      (.elemN "div" .untagged false (.cons
        (.elemN "p" .untagged false (.cons (.textN (str "hello")) .nil))
        .nil))
      .nil))
    .nil)

/-- A pristine page body → div → div → p("a"): the paragraph is tagged at
depth 3, and its text is a single one-letter word, which `renderWord`
returns unchanged — no emphasis span is produced. -/
def c4d0 : Dom :=
  .elemN "body" .untagged false (.cons
    (.elemN "div" .untagged false (.cons
      (.elemN "div" .untagged false (.cons
        (.elemN "p" .untagged false (.cons (.textN (str "a")) .nil))
        .nil))
      .nil))
    .nil)

/-- A pristine page body → div → div → p("hello") for the C4 witness. -/
def c4w : Dom :=
  .elemN "body" .untagged false (.cons
    (.elemN "div" .untagged false (.cons
      (.elemN "div" .untagged false (.cons
        (.elemN "p" .untagged false (.cons (.textN (str "hello")) .nil))
        .nil))
      .nil))
    .nil)

/-! ### Mutual induction helpers -/

theorem domInd {P : Dom → Prop} {Q : DomList → Prop}
    (ht : ∀ s, P (.textN s)) (hb : ∀ s, P (.boldR s))
    (he : ∀ t st ex cs, Q cs → P (.elemN t st ex cs))
    (hn : Q .nil) (hc : ∀ d ds, P d → Q ds → Q (.cons d ds)) :
    (∀ d, P d) ∧ (∀ l, Q l) :=
  ⟨fun d => Dom.rec ht hb he hn hc d, fun l => DomList.rec ht hb he hn hc l⟩

theorem domListInd {Q : DomList → Prop}
    (hn : Q .nil) (hc : ∀ d ds, Q ds → Q (.cons d ds)) : ∀ l, Q l :=
  (domInd (P := fun _ => True) (fun _ => trivial) (fun _ => trivial)
    (fun _ _ _ _ _ => trivial) hn (fun d ds _ ih => hc d ds ih)).2

/-! ### Word-level lemmas -/

theorem dropWhile_all_false {p : Char → Bool} {l : List Char}
    (h : ∀ c ∈ l, p c = false) : l.dropWhile p = l := by
  cases l with
  | nil => rfl
  | cons a t => simp [List.dropWhile_cons, h a (by simp)]

theorem jsTrim_eq_self {w : List Char} (h : ∀ c ∈ w, jsWs c = false) :
    jsTrim w = w := by
  unfold jsTrim
  rw [dropWhile_all_false h, dropWhile_all_false, List.reverse_reverse]
  intro c hc
  exact h c (List.mem_reverse.mp hc)

theorem mem_of_mem_jsTrim {c : Char} {w : List Char} (h : c ∈ jsTrim w) :
    c ∈ w := by
  unfold jsTrim at h
  rw [List.mem_reverse] at h
  have h1 := (List.dropWhile_sublist _).subset h
  rw [List.mem_reverse] at h1
  exact (List.dropWhile_sublist _).subset h1

theorem boldLenHalf_eq_ceil (n : Nat) : boldLenHalf n = (n + 1) / 2 := by
  unfold boldLenHalf; omega

theorem boldLenHalf_bounds {n : Nat} (h : 2 ≤ n) :
    1 ≤ boldLenHalf n ∧ boldLenHalf n < n := by
  unfold boldLenHalf; omega

theorem boldLenStart_bounds {n : Nat} (h : 2 ≤ n) :
    1 ≤ boldLenStart n ∧ boldLenStart n < n := by
  unfold boldLenStart jsRound30
  simp only [Nat.min_def, Nat.max_def]
  split_ifs <;> omega

/-- C6. For every word `w` (no internal whitespace) of length at least 2,
`renderWord` in `half` mode emphasises exactly the first `⌈len(w)/2⌉`
characters, and emphasised prefix plus plain remainder concatenate to `w`. -/
theorem c6_half_emphasis (w : List Char)
    (hws : ∀ c ∈ w, jsWs c = false) (hlen : 2 ≤ w.length) :
    renderWordNodes "half" w =
      .cons (.boldR (w.take ((w.length + 1) / 2)))
        (.cons (.textN (w.drop ((w.length + 1) / 2))) .nil)
    ∧ (w.take ((w.length + 1) / 2)).length = (w.length + 1) / 2
    ∧ w.take ((w.length + 1) / 2) ++ w.drop ((w.length + 1) / 2) = w := by
  have ht : jsTrim w = w := jsTrim_eq_self hws
  refine ⟨?_, ?_, List.take_append_drop _ _⟩
  · unfold renderWordNodes
    rw [ht, if_neg (by omega), if_neg (by decide), if_pos rfl,
      boldLenHalf_eq_ceil]
  · rw [List.length_take]; omega

/-- C6 witness at `w = "word"`. -/
theorem c6_half_emphasis_witness :
    renderWordNodes "half" (str "word") =
      .cons (.boldR (str "wo")) (.cons (.textN (str "rd")) .nil)
    ∧ (str "wo").length = 2 := by
  have h := c6_half_emphasis (str "word") (by decide) (by decide)
  exact ⟨h.1, by decide⟩

/-- C7. For every word `w` (no internal whitespace): words shorter than 2
characters are returned unchanged by `renderWord` in `start` mode, and for
length at least 2 the emphasised prefix has length exactly
`clamp(round(len*0.3), 1, 7)` — with `round(len*0.3)` equal to
`(3*len + 5) / 10`, the value of `Math.round(len * 0.3)`. -/
theorem c7_start_emphasis (w : List Char) (hws : ∀ c ∈ w, jsWs c = false) :
    (w.length < 2 → renderWordNodes "start" w = .cons (.textN w) .nil)
    ∧ (2 ≤ w.length →
        renderWordNodes "start" w =
          .cons (.boldR (w.take (min 7 (max 1 ((3 * w.length + 5) / 10)))))
            (.cons (.textN (w.drop (min 7 (max 1 ((3 * w.length + 5) / 10))))) .nil)
        ∧ (w.take (min 7 (max 1 ((3 * w.length + 5) / 10)))).length =
            min 7 (max 1 ((3 * w.length + 5) / 10))
        ∧ w.take (min 7 (max 1 ((3 * w.length + 5) / 10))) ++
            w.drop (min 7 (max 1 ((3 * w.length + 5) / 10))) = w) := by
  have ht : jsTrim w = w := jsTrim_eq_self hws
  constructor
  · intro hs
    unfold renderWordNodes
    rw [ht, if_pos hs]
  · intro hlen
    have hb := boldLenStart_bounds hlen
    have hk : boldLenStart w.length = min 7 (max 1 ((3 * w.length + 5) / 10)) := rfl
    refine ⟨?_, ?_, List.take_append_drop _ _⟩
    · unfold renderWordNodes
      rw [ht, if_neg (by omega), if_pos rfl, hk]
    · rw [List.length_take]
      rw [hk] at hb
      omega

/-- C7 witness at `w = "information"` (length 11, prefix
`clamp(round(3.3),1,7) = 3`) and `w = "a"`. -/
theorem c7_start_emphasis_witness :
    renderWordNodes "start" (str "a") = .cons (.textN (str "a")) .nil
    ∧ renderWordNodes "start" (str "information") =
        .cons (.boldR (str "inf")) (.cons (.textN (str "ormation")) .nil) := by
  refine ⟨(c7_start_emphasis (str "a") (by decide)).1 (by decide), ?_⟩
  have h := ((c7_start_emphasis (str "information") (by decide)).2 (by decide)).1
  rw [h]; rfl

/-- C10. For every non-empty word `w` of length at least 2 with no internal
whitespace and every bolding mode (including unknown ones), `renderWord`
produces exactly one emphasis span followed by a plain text node; the
emphasised text is a non-empty proper prefix of `w`, the remainder is
non-empty, and the two concatenate to `w`. -/
theorem c10_word_shape (bm : String) (w : List Char) (_hne : w ≠ [])
    (hws : ∀ c ∈ w, jsWs c = false) (hlen : 2 ≤ w.length) :
    ∃ k, 1 ≤ k ∧ k < w.length ∧
      renderWordNodes bm w =
        .cons (.boldR (w.take k)) (.cons (.textN (w.drop k)) .nil)
      ∧ w.take k ++ w.drop k = w
      ∧ w.take k ≠ [] ∧ w.drop k ≠ [] := by
  have ht : jsTrim w = w := jsTrim_eq_self hws
  have hshape : ∀ k, 1 ≤ k → k < w.length →
      w.take k ≠ [] ∧ w.drop k ≠ [] := by
    intro k h1 h2
    constructor
    · have : (w.take k).length = k := by rw [List.length_take]; omega
      intro hnil; rw [hnil] at this; simp at this; omega
    · have : (w.drop k).length = w.length - k := List.length_drop _ _
      intro hnil; rw [hnil] at this; simp at this; omega
  by_cases hs : bm = "start"
  · refine ⟨boldLenStart w.length, (boldLenStart_bounds hlen).1,
      (boldLenStart_bounds hlen).2, ?_, List.take_append_drop _ _,
      hshape _ (boldLenStart_bounds hlen).1 (boldLenStart_bounds hlen).2⟩
    unfold renderWordNodes
    rw [ht, if_neg (by omega), if_pos hs]
  · refine ⟨boldLenHalf w.length, (boldLenHalf_bounds hlen).1,
      (boldLenHalf_bounds hlen).2, ?_, List.take_append_drop _ _,
      hshape _ (boldLenHalf_bounds hlen).1 (boldLenHalf_bounds hlen).2⟩
    by_cases hh : bm = "half"
    · unfold renderWordNodes
      rw [ht, if_neg (by omega), if_neg hs, if_pos hh]
    · unfold renderWordNodes
      rw [ht, if_neg (by omega), if_neg hs, if_neg hh]

/-- C10 witness at an unknown mode (`"mystery"`) and `w = "abc"`. -/
theorem c10_word_shape_witness :
    (str "abc" ≠ [] ∧ (∀ c ∈ str "abc", jsWs c = false) ∧ 2 ≤ (str "abc").length)
    ∧ (∃ k, 1 ≤ k ∧ k < (str "abc").length ∧
        renderWordNodes "mystery" (str "abc") =
          .cons (.boldR ((str "abc").take k))
            (.cons (.textN ((str "abc").drop k)) .nil)
        ∧ (str "abc").take k ++ (str "abc").drop k = str "abc"
        ∧ (str "abc").take k ≠ [] ∧ (str "abc").drop k ≠ []) :=
  ⟨⟨by decide, by decide, by decide⟩,
   c10_word_shape "mystery" (str "abc") (by decide) (by decide) (by decide)⟩

/-! ### C2: the shared debounce timer -/

theorem drainBold_eq (mode : String) (l : List SElem) :
    drainBold mode l = (l.filter (boldValid mode)).map Act.renderElement := by
  induction l with
  | nil => rfl
  | cons e rest ih =>
      by_cases h : boldValid mode e = true <;>
        simp [drainBold, List.filter_cons, h, ih]

theorem drainUnbold_eq (mode : String) (l : List SElem) :
    drainUnbold mode l =
      (l.filter (unboldValid mode)).map (fun _ => Act.processContainers) := by
  induction l with
  | nil => rfl
  | cons e rest ih =>
      by_cases h : unboldValid mode e = true <;>
        simp [drainUnbold, List.filter_cons, h, ih]

/-- C2 counterexample. A transform request and then a revert request arrive
within the debounce window; the revert request re-arms the shared timer
with the unbold callback. On expiry the transform queue is not drained at
all: the queued element still satisfies the drain-time transform guard,
yet no call is made and it stays queued. This contradicts the claim that a
single firing drains both queues fully with every transform item serviced
before any revert item. -/
theorem c2_counterexample :
    boldValid
      (debounceRenderUnbold
        (debounceRenderBold ⟨"on", [], [], none⟩ (some ⟨false, false, false⟩))
        (some ⟨false, false, false⟩)).renderingMode ⟨false, false, false⟩ = true
    ∧ (timerFire
        (debounceRenderUnbold
          (debounceRenderBold ⟨"on", [], [], none⟩ (some ⟨false, false, false⟩))
          (some ⟨false, false, false⟩))).1.boldQueue = [⟨false, false, false⟩]
    ∧ (timerFire
        (debounceRenderUnbold
          (debounceRenderBold ⟨"on", [], [], none⟩ (some ⟨false, false, false⟩))
          (some ⟨false, false, false⟩))).2 = [] := by
  decide

/-- C2 as amended: on timer expiry only the queue of the debounce function
that last armed the timer is drained — fully, in FIFO order, each item
re-validated at drain time and silently dropped when stale — while the
other queue is left untouched; and enqueueing never validates. -/
theorem c2_single_queue_drain (s : SchedState) (e : SElem) :
    (s.timer = some QOwner.bold →
        (timerFire s).1.boldQueue = []
        ∧ (timerFire s).1.unboldQueue = s.unboldQueue
        ∧ (timerFire s).2 =
            (s.boldQueue.filter (boldValid s.renderingMode)).map Act.renderElement)
    ∧ (s.timer = some QOwner.unbold →
        (timerFire s).1.unboldQueue = []
        ∧ (timerFire s).1.boldQueue = s.boldQueue
        ∧ (timerFire s).2 =
            (s.unboldQueue.filter (unboldValid s.renderingMode)).map
              (fun _ => Act.processContainers))
    ∧ (debounceRenderBold s (some e)).boldQueue = s.boldQueue ++ [e]
    ∧ (debounceRenderUnbold s (some e)).unboldQueue = s.unboldQueue ++ [e] := by
  refine ⟨fun h => ?_, fun h => ?_, rfl, rfl⟩
  · simp [timerFire, h, drainBold_eq]
  · simp [timerFire, h, drainUnbold_eq]

/-- C2 amended witness: a bold-armed timer with one valid and one stale
item drains in order and leaves the unbold queue alone. -/
theorem c2_single_queue_drain_witness :
    (timerFire ⟨"on", [⟨false, false, false⟩, ⟨true, false, false⟩], [⟨false, false, false⟩],
        some QOwner.bold⟩).1.boldQueue = []
    ∧ (timerFire ⟨"on", [⟨false, false, false⟩, ⟨true, false, false⟩], [⟨false, false, false⟩],
        some QOwner.bold⟩).1.unboldQueue = [⟨false, false, false⟩]
    ∧ (timerFire ⟨"on", [⟨false, false, false⟩, ⟨true, false, false⟩], [⟨false, false, false⟩],
        some QOwner.bold⟩).2 = [Act.renderElement ⟨false, false, false⟩] := by
  have h := (c2_single_queue_drain
    ⟨"on", [⟨false, false, false⟩, ⟨true, false, false⟩], [⟨false, false, false⟩],
      some QOwner.bold⟩ ⟨false, false, false⟩).1 rfl
  refine ⟨h.1, h.2.1, ?_⟩
  rw [h.2.2]; decide

/-! ### C5: idempotence of the transform on processed subtrees -/


theorem setIdx_getIdx_self {cs : DomList} :
    ∀ {i : Nat} {c : Dom}, getIdx cs i = some c → setIdx cs i c = cs := by
  induction cs using domListInd with
  | hn => intro i c h; cases i <;> simp [getIdx] at h
  | hc d ds ih =>
      intro i c h
      cases i with
      | zero => simp [getIdx] at h; simp [setIdx, h]
      | succ n => simp [getIdx] at h; simp [setIdx, ih h]

theorem renderTargetD_of_bold (rm bm : String) (ue : Bool) {d : Dom}
    (h : containsBoldD d = true) : renderTargetD rm bm ue d = (d, false) := by
  cases d with
  | textN s => simp [containsBoldD] at h
  | boldR s => rfl
  | elemN t st ex cs =>
      rw [containsBoldD] at h
      simp [renderTargetD, h]

theorem renderAtAux_of_bold (rm bm : String) :
    ∀ (path : List Nat) (ue : Bool) (d : Dom),
      containsBoldAtPath path d = true → renderAtAux rm bm ue path d = (d, false) := by
  intro path
  induction path with
  | nil => intro ue d h; exact renderTargetD_of_bold rm bm ue h
  | cons i rest ih =>
      intro ue d h
      cases d with
      | textN s => simp [containsBoldAtPath] at h
      | boldR s => simp [containsBoldAtPath] at h
      | elemN t st ex cs =>
          rw [containsBoldAtPath] at h
          cases hg : getIdx cs i with
          | none => rw [hg] at h; simp at h
          | some c =>
              rw [hg] at h; simp at h
              rw [renderAtAux, hg]
              simp [ih (ue || ex) c h, setIdx_getIdx_self hg]
              cases st <;> simp

/-- C5. Idempotence: invoking the transform on an element whose subtree
already contains a processed-marker span (or which is such a span itself)
changes nothing in the document — no nested or duplicate emphasis is ever
created. -/
theorem c5_idempotent (rm bm : String) (path : List Nat) (d : Dom)
    (h : containsBoldAtPath path d = true) :
    renderAtDoc rm bm path d = d := by
  unfold renderAtDoc
  rw [renderAtAux_of_bold rm bm path false d h]

/-- C5 witness: re-transforming a paragraph whose text is already split
into a span plus remainder leaves it untouched. -/
theorem c5_idempotent_witness :
    containsBoldAtPath []
      (Dom.elemN "p" .active false
        (.cons (.boldR (str "hel")) (.cons (.textN (str "lo")) .nil))) = true
    ∧ renderAtDoc "on" "half" []
        (Dom.elemN "p" .active false
          (.cons (.boldR (str "hel")) (.cons (.textN (str "lo")) .nil))) =
      Dom.elemN "p" .active false
        (.cons (.boldR (str "hel")) (.cons (.textN (str "lo")) .nil)) :=
  ⟨by decide, c5_idempotent "on" "half" [] _ (by decide)⟩

/-! ### Text-content preservation through the transform pipeline -/

theorem tc_appendL : ∀ (a b : DomList),
    textContentL (appendL a b) = textContentL a ++ textContentL b := by
  have h := domListInd
    (Q := fun a => ∀ b, textContentL (appendL a b) = textContentL a ++ textContentL b)
    (fun b => by simp [appendL, textContentL])
    (fun d ds ih b => by simp [appendL, textContentL, ih b])
  exact h

theorem splitEmojiAux_join : ∀ (l acc : List Char),
    (splitEmojiAux l acc).flatten = acc.reverse ++ l := by
  intro l
  induction l with
  | nil => intro acc; simp [splitEmojiAux]
  | cons c rest ih =>
      intro acc
      by_cases hc : emojiPat c = true
      · simp [splitEmojiAux, hc, ih]
      · rw [splitEmojiAux, if_neg (by simp [hc]), ih]
        simp

theorem join_filter_ne_nil : ∀ L : List (List Char),
    (L.filter (fun s => s ≠ [])).flatten = L.flatten := by
  intro L
  induction L with
  | nil => rfl
  | cons s ss ih =>
      cases s with
      | nil => simpa [List.filter_cons] using ih
      | cons c cs => simpa [List.filter_cons] using ih

theorem splitEmoji_join (l : List Char) : (splitEmoji l).flatten = l := by
  unfold splitEmoji
  rw [join_filter_ne_nil, splitEmojiAux_join]
  rfl

theorem tokens_join : ∀ l : List Char, (tokens l).flatten = l := by
  intro l
  induction l with
  | nil => rfl
  | cons c rest ih =>
      rw [tokens]
      cases htr : tokens rest with
      | nil =>
          rw [htr] at ih; simp at ih
          simp [← ih]
      | cons t ts =>
          rw [htr] at ih
          cases t with
          | nil =>
              simp at ih ⊢
              exact ih
          | cons d t' =>
              by_cases hw : jsWs c = jsWs d
              · simp only [hw, if_true, ite_true] at ih ⊢
                simp at ih ⊢
                exact ih
              · simp only [hw, if_false, ite_false] at ih ⊢
                simp [hw] at ih ⊢
                exact ih

theorem tokens_uniform : ∀ (l w : List Char), w ∈ tokens l →
    ∀ a ∈ w, ∀ b ∈ w, jsWs a = jsWs b := by
  intro l
  induction l with
  | nil => intro w hw; simp [tokens] at hw
  | cons c rest ih =>
      intro w hw
      rw [tokens] at hw
      cases htr : tokens rest with
      | nil =>
          rw [htr] at hw; simp at hw; subst hw
          intro a ha b hb; simp at ha hb; subst ha; subst hb; rfl
      | cons t ts =>
          rw [htr] at hw
          cases t with
          | nil =>
              simp at hw
              rcases hw with hw | hw | hw
              · subst hw; intro a ha b hb; simp at ha hb; subst ha; subst hb; rfl
              · subst hw; intro a ha; simp at ha
              · exact ih w (by rw [htr]; exact List.mem_cons_of_mem _ hw)
          | cons d t' =>
              by_cases hjw : jsWs c = jsWs d
              · simp only [hjw, if_true, ite_true] at hw
                simp at hw
                rcases hw with hw | hw
                · subst hw
                  have hu := ih (d :: t') (by rw [htr]; exact List.mem_cons_self _ _)
                  have hd : ∀ a ∈ c :: d :: t', jsWs a = jsWs d := by
                    intro a ha
                    rcases List.mem_cons.mp ha with rfl | ha
                    · exact hjw
                    · exact hu a ha d (List.mem_cons_self _ _)
                  intro a ha b hb
                  rw [hd a ha, hd b hb]
                · exact ih w (by rw [htr]; exact List.mem_cons_of_mem _ hw)
              · simp only [hjw, if_false, ite_false] at hw
                simp [hjw] at hw
                rcases hw with hw | hw | hw
                · subst hw; intro a ha b hb; simp at ha hb; subst ha; subst hb; rfl
                · subst hw
                  exact ih (d :: t') (by rw [htr]; exact List.mem_cons_self _ _)
                · exact ih w (by rw [htr]; exact List.mem_cons_of_mem _ hw)

theorem tc_renderWordNodes (bm : String) (w : List Char) :
    textContentL (renderWordNodes bm w) = jsTrim w := by
  unfold renderWordNodes
  by_cases h1 : (jsTrim w).length < 2
  · simp [h1, textContentL, textContentD]
  · by_cases h2 : bm = "start"
    · simp [h1, h2, textContentL, textContentD, List.take_append_drop]
    · by_cases h3 : bm = "half"
      · simp [h1, h2, h3, textContentL, textContentD, List.take_append_drop]
      · simp [h1, h2, h3, textContentL, textContentD, List.take_append_drop]

theorem tc_wordNode (bm : String) (w : List Char)
    (hu : ∀ a ∈ w, ∀ b ∈ w, jsWs a = jsWs b) :
    textContentL (wordNode bm w) = w := by
  unfold wordNode
  by_cases h : w.any (fun c => ! jsWs c) = true
  · rw [if_pos h, tc_renderWordNodes]
    rcases List.any_eq_true.mp h with ⟨c, hc, hcw⟩
    apply jsTrim_eq_self
    intro b hb
    have := hu b hb c hc
    simp at hcw
    rw [this, hcw]
  · rw [if_neg h]
    simp [textContentL, textContentD]

theorem tc_tokensNodes (bm : String) : ∀ L : List (List Char),
    (∀ w ∈ L, ∀ a ∈ w, ∀ b ∈ w, jsWs a = jsWs b) →
    textContentL (tokensNodes bm L) = L.flatten := by
  intro L
  induction L with
  | nil => intro _; rfl
  | cons w ws ih =>
      intro h
      rw [tokensNodes, tc_appendL, tc_wordNode bm w (h w (List.mem_cons_self _ _)),
        ih (fun v hv => h v (List.mem_cons_of_mem _ hv))]
      simp

theorem tc_segNodes (bm : String) (seg : List Char) :
    textContentL (segNodes bm seg) = seg := by
  unfold segNodes
  by_cases h : seg.any emojiPat = true
  · simp [h, textContentL, textContentD]
  · rw [if_neg h,
      tc_tokensNodes bm (tokens seg) (tokens_uniform seg), tokens_join]

theorem tc_segsNodes (bm : String) : ∀ L : List (List Char),
    textContentL (segsNodes bm L) = L.flatten := by
  intro L
  induction L with
  | nil => rfl
  | cons s ss ih =>
      rw [segsNodes, tc_appendL, tc_segNodes, ih]
      simp

theorem tc_normalizeTexts : ∀ l : DomList,
    textContentL (normalizeTexts l) = textContentL l := by
  intro l
  induction l using normalizeTexts.induct with
  | case1 => rfl
  | case2 rest ih =>
      simp [normalizeTexts, textContentL, textContentD, ih]
  | case3 s rest hs t r2 heq ih =>
      simp only [normalizeTexts, hs, if_false, ite_false, heq]
      rw [heq] at ih
      simp [textContentL, textContentD] at ih ⊢
      simp [← ih]
  | case4 s rest hs hne ih =>
      simp only [normalizeTexts, hs, if_false, ite_false]
      rcases hr : normalizeTexts rest with _ | ⟨d, r2⟩
      · rw [hr] at ih
        simp [textContentL, textContentD, ← ih]
      · rw [hr] at ih
        cases d with
        | textN t => exact absurd hr (hne t r2)
        | boldR t =>
            simp [textContentL, textContentD] at ih ⊢
            exact ih
        | elemN t st ex cs =>
            simp [textContentL, textContentD] at ih ⊢
            exact ih
  | case5 d rest hd ih =>
      cases d with
      | textN s => exact absurd rfl (hd s)
      | boldR s => simp [normalizeTexts, textContentL, ih]
      | elemN t st ex cs => simp [normalizeTexts, textContentL, ih]

theorem tc_transformTextNodes (bm : String) (t : List Char) :
    textContentL (transformTextNodes bm t) = t := by
  unfold transformTextNodes
  rw [tc_normalizeTexts, tc_segsNodes, splitEmoji_join]

theorem tc_proc (rm bm : String) :
    (∀ d, ∀ ue, textContentL (procNode rm bm ue d).1 = textContentD d) ∧
    (∀ l, ∀ ue, textContentL (procList rm bm ue l).1 = textContentL l) := by
  apply domInd
  · intro s ue
    simp only [procNode]
    split_ifs <;> simp [textContentL, textContentD, tc_transformTextNodes]
  · intro s ue
    simp [procNode, textContentL, textContentD]
  · intro t st ex cs ih ue
    simp only [procNode]
    by_cases hb : containsBoldL cs = true
    · simp [hb, textContentL, textContentD]
    · cases st <;>
        · simp only [hb, if_false, ite_false]
          split_ifs <;> simp [textContentL, textContentD, ih]
  · intro ue; rfl
  · intro d ds ihd ihds ue
    simp [procList, tc_appendL, ihd ue, ihds ue, textContentL]

theorem tc_procNode (rm bm : String) (ue : Bool) (d : Dom) :
    textContentL (procNode rm bm ue d).1 = textContentD d :=
  (tc_proc rm bm).1 d ue

theorem procNode_elem_shape (rm bm : String) (ue : Bool) (t : String)
    (st : CStatus) (ex : Bool) (cs : DomList) :
    ∃ d' f, procNode rm bm ue (.elemN t st ex cs) = (.cons d' .nil, f) := by
  simp only [procNode]
  by_cases hb : containsBoldL cs = true
  · simp [hb]
  · cases st <;>
      · simp only [hb, if_false, ite_false]
        split_ifs <;> exact ⟨_, _, rfl⟩

theorem tc_renderTargetD (rm bm : String) (ue : Bool) (d : Dom) :
    textContentD (renderTargetD rm bm ue d).1 = textContentD d := by
  cases d with
  | textN s => rfl
  | boldR s => rfl
  | elemN t st ex cs =>
      rw [renderTargetD]
      split_ifs with hg
      · obtain ⟨d', f, heq⟩ := procNode_elem_shape rm bm ue t st ex cs
        have htc := tc_procNode rm bm ue (.elemN t st ex cs)
        rw [heq] at htc ⊢
        simp [textContentL] at htc
        simp [firstOr, htc]
      · rfl

theorem tc_setIdx : ∀ (cs : DomList), ∀ {i : Nat} {c : Dom} (x : Dom),
    getIdx cs i = some c → textContentD x = textContentD c →
    textContentL (setIdx cs i x) = textContentL cs := by
  have h := domListInd (Q := fun cs => ∀ {i : Nat} {c : Dom} (x : Dom),
    getIdx cs i = some c → textContentD x = textContentD c →
    textContentL (setIdx cs i x) = textContentL cs) ?_ ?_
  · exact h
  · intro i c x hg
    cases i <;> simp [getIdx] at hg
  · intro d ds ih i c x hg htc
    cases i with
    | zero =>
        simp [getIdx] at hg
        subst hg
        simp [setIdx, textContentL, htc]
    | succ n =>
        simp [getIdx] at hg
        simp [setIdx, textContentL, ih x hg htc]

theorem tc_renderAtAux (rm bm : String) : ∀ (path : List Nat) (ue : Bool) (d : Dom),
    textContentD (renderAtAux rm bm ue path d).1 = textContentD d := by
  intro path
  induction path with
  | nil => intro ue d; exact tc_renderTargetD rm bm ue d
  | cons i rest ih =>
      intro ue d
      cases d with
      | textN s => rfl
      | boldR s => rfl
      | elemN t st ex cs =>
          rw [renderAtAux]
          cases hg : getIdx cs i with
          | none => rfl
          | some c =>
              have hrec := ih (ue || ex) c
              have hset := tc_setIdx cs ((renderAtAux rm bm (ue || ex) rest c).1) hg hrec
              cases st with
              | untagged => simp [textContentD, hset]
              | inactive =>
                  by_cases hr2 : (renderAtAux rm bm (ue || ex) rest c).2 = true <;>
                    simp [hr2, textContentD, hset]
              | active =>
                  by_cases hr2 : (renderAtAux rm bm (ue || ex) rest c).2 = true <;>
                    simp [hr2, textContentD, hset]

theorem tc_renderAtDoc (rm bm : String) (path : List Nat) (d : Dom) :
    textContentD (renderAtDoc rm bm path d) = textContentD d :=
  tc_renderAtAux rm bm path false d

theorem tc_unboldL : ∀ l, textContentL (unboldL l) = textContentL l := by
  intro l
  induction l using unboldL.induct with
  | case1 => rfl
  | case2 s t rest ih => simp [unboldL, textContentL, textContentD, ih]
  | case3 s rest h ih => simp [unboldL, textContentL, textContentD, ih]
  | case4 s rest ih => simp [unboldL, textContentL, textContentD, ih]
  | case5 t st ex cs rest ih1 ih2 =>
      simp [unboldL, textContentL, textContentD, ih1, ih2]

theorem tc_unboldTop (d : Dom) : textContentD (unboldTop d) = textContentD d := by
  cases d <;> simp [unboldTop, textContentD, tc_unboldL]

theorem tc_naiveUnbL : ∀ l, textContentL (naiveUnbL l) = textContentL l := by
  intro l
  induction l using naiveUnbL.induct with
  | case1 => rfl
  | case2 s rest ih => simp [naiveUnbL, textContentL, textContentD, ih]
  | case3 s rest ih => simp [naiveUnbL, textContentL, textContentD, ih]
  | case4 t st ex cs rest ih1 ih2 =>
      simp [naiveUnbL, textContentL, textContentD, ih1, ih2]

theorem tc_naiveUnbTop (d : Dom) :
    textContentD (naiveUnbTop d) = textContentD d := by
  cases d <;> simp [naiveUnbTop, textContentD, tc_naiveUnbL]

theorem tc_pcPass :
    (∀ d, textContentD (pcPassD d).1 = textContentD d) ∧
    (∀ l, textContentL (pcPassL l).1 = textContentL l) := by
  apply domInd
  · intro s; rfl
  · intro s; rfl
  · intro t st ex cs ih
    cases st with
    | untagged => simp [pcPassD, textContentD, ih]
    | inactive => simp [pcPassD, textContentD, ih]
    | active =>
        by_cases hb : containsBoldL cs = true
        · simp [pcPassD, hb, textContentD, tc_unboldL]
        · simp [pcPassD, hb, textContentD, ih]
  · rfl
  · intro d ds ihd ihds
    simp [pcPassL, textContentL, ihd, ihds]

theorem tc_processContainers (d : Dom) :
    textContentD (processContainers d) = textContentD d := by
  unfold processContainers
  by_cases h1 : hasContainerD d = true
  · by_cases h2 : (pcPassD d).2 = true <;>
      simp [h1, h2, tc_unboldTop, tc_pcPass.1 d]
  · simp [h1, tc_unboldTop]

theorem tc_tagPass :
    (∀ d, ∀ cur ae, textContentD (tagPassD cur ae d) = textContentD d) ∧
    (∀ l, ∀ cur ae, textContentL (tagPassL cur ae l) = textContentL l) := by
  apply domInd
  · intro s cur ae; rfl
  · intro s cur ae; rfl
  · intro t st ex cs ih cur ae
    simp [tagPassD, textContentD, ih]
  · intro cur ae; rfl
  · intro d ds ihd ihds cur ae
    simp [tagPassL, textContentL, ihd, ihds]

theorem tc_tagContainers (d : Dom) :
    textContentD (tagContainers d) = textContentD d := by
  cases d with
  | textN s => rfl
  | boldR s => rfl
  | elemN t st ex cs =>
      rw [tagContainers]
      split_ifs <;> simp [textContentD, tc_tagPass.2]

theorem tc_initQR (d : Dom) : textContentD (initQR d) = textContentD d := by
  cases d with
  | textN s => rfl
  | boldR s => rfl
  | elemN t st ex cs =>
      rw [initQR]
      split_ifs <;> simp [tc_tagContainers, tc_naiveUnbTop]

theorem tc_onMessage (s : Sys) (rm bm : String) :
    textContentD ((onMessage s rm bm).doc) = textContentD s.doc := by
  unfold onMessage
  by_cases h : rm = "off" <;> simp [h, tc_processContainers, tc_initQR]

/-- C1 (code bug). The transform does not escape markup-significant
characters before the `tempDiv.innerHTML` re-parse: `<` (U+003C) carries
the `Symbol` property, so the segmentation passes it through verbatim, and
for the text node `"x<y"` the reassembled `rendered` string is exactly the
raw text `"x<y"`. Assigned to `innerHTML`, the platform's HTML parser
consumes `<y` as a start tag, leaving the element with text `"x"`: the
transform itself destroys text, so the Reverter cannot restore the
original content byte-for-byte. -/
theorem c1_markup_passthrough :
    renderedStr "half" (str "x<y") = str "x<y"
    ∧ emojiPat '<' = true := ⟨rfl, rfl⟩

/-! ### C3: re-delivering an unchanged mode value -/


/-- C3 counterexample. Startup reads `renderMode = 'off'` and still runs
`initializeQuickReader`, which tags the depth-3 paragraph `inactive`.
Delivering a settings message whose values equal the current mode state
(`'off'`, `'half'`) runs `processContainers`, which strips the `inactive`
tag: the tree's container status tags change, refuting the claim. -/
theorem c3_counterexample :
    Reachable ⟨"off", "half", initQR c3d0⟩
    ∧ statusAt [0, 0, 0] (initQR c3d0) = some CStatus.inactive
    ∧ statusAt [0, 0, 0]
        ((onMessage ⟨"off", "half", initQR c3d0⟩ "off" "half").doc) =
        some CStatus.untagged := by
  refine ⟨Reachable.init c3d0 "off" "half" (by rfl) (by rfl), by rfl, by rfl⟩

/-- C3 as amended: delivering a mode notification equal to the current
mode state always preserves the text content of the tree, but not the tree
state generally — an equal disabled-mode notification re-runs the Reverter
(clearing Inactive tags), and an equal enabled-mode notification re-runs
initialization and re-tags candidate containers as Inactive. -/
theorem c3_equal_mode_text (s : Sys) :
    textContentD ((onMessage s s.mode s.bmode).doc) = textContentD s.doc :=
  tc_onMessage s s.mode s.bmode

/-! ### C9: the flat fallback of the Reverter -/

theorem noBold_unboldL : ∀ l, containsBoldL (unboldL l) = false := by
  intro l
  induction l using unboldL.induct with
  | case1 => rfl
  | case2 s t rest ih => simp [unboldL, containsBoldL, containsBoldD, ih]
  | case3 s rest h ih => simp [unboldL, containsBoldL, containsBoldD, ih]
  | case4 s rest ih => simp [unboldL, containsBoldL, containsBoldD, ih]
  | case5 t st ex cs rest ih1 ih2 =>
      simp [unboldL, containsBoldL, containsBoldD, ih1, ih2]

theorem noBold_unboldTop (d : Dom) :
    containsBoldD (unboldTop d) = false := by
  cases d <;> simp [unboldTop, containsBoldD, noBold_unboldL]

/-- C9. When no element of the tree carries a container status tag, the
Reverter takes the flat fallback: the result is exactly the whole-tree span
unwrap, no generated span survives, text content is preserved, and a span
whose next sibling is a plain text node is merged with it into a single
text node (shown on `<p><b>hel</b>lo</p>`, which reverts to a single text
node `"hello"`). -/
theorem c9_flat_fallback (d : Dom) (h : hasContainerD d = false) :
    processContainers d = unboldTop d
    ∧ containsBoldD (processContainers d) = false
    ∧ textContentD (processContainers d) = textContentD d
    ∧ processContainers
        (Dom.elemN "body" .untagged false (.cons
          (.elemN "p" .untagged false
            (.cons (.boldR (str "hel")) (.cons (.textN (str "lo")) .nil)))
          .nil)) =
      Dom.elemN "body" .untagged false (.cons
        (.elemN "p" .untagged false (.cons (.textN (str "hello")) .nil))
        .nil) := by
  have h1 : processContainers d = unboldTop d := by
    unfold processContainers
    simp [h]
  exact ⟨h1, by rw [h1]; exact noBold_unboldTop d, tc_processContainers d, rfl⟩

/-- C9 witness: a shallow untagged tree holding one span. -/
theorem c9_flat_fallback_witness :
    hasContainerD
      (Dom.elemN "body" .untagged false (.cons
        (.elemN "p" .untagged false
          (.cons (.boldR (str "hel")) (.cons (.textN (str "lo")) .nil)))
        .nil)) = false
    ∧ containsBoldD (processContainers
        (Dom.elemN "body" .untagged false (.cons
          (.elemN "p" .untagged false
            (.cons (.boldR (str "hel")) (.cons (.textN (str "lo")) .nil)))
          .nil))) = false :=
  ⟨by decide,
   (c9_flat_fallback
     (Dom.elemN "body" .untagged false (.cons
       (.elemN "p" .untagged false
         (.cons (.boldR (str "hel")) (.cons (.textN (str "lo")) .nil)))
       .nil)) (by decide)).2.1⟩

/-! ### C8: Unicode safety of the segmentation -/


theorem neb_appendL : ∀ a b : DomList,
    noEmojiBoldsL (appendL a b) = (noEmojiBoldsL a && noEmojiBoldsL b) := by
  have h := domListInd (Q := fun a => ∀ b,
    noEmojiBoldsL (appendL a b) = (noEmojiBoldsL a && noEmojiBoldsL b))
    (fun b => by simp [appendL, noEmojiBoldsL])
    (fun d ds ih b => by
      simp [appendL, noEmojiBoldsL, ih b, Bool.and_assoc])
  exact h

theorem neb_normalizeTexts : ∀ l, noEmojiBoldsL l = true →
    noEmojiBoldsL (normalizeTexts l) = true := by
  intro l
  induction l using normalizeTexts.induct with
  | case1 => intro _; rfl
  | case2 rest ih =>
      intro h
      simp [normalizeTexts, noEmojiBoldsL, noEmojiBoldsD] at h ⊢
      exact ih h
  | case3 s rest hs t r2 heq ih =>
      intro h
      simp only [normalizeTexts, hs, if_false, ite_false, heq]
      simp [noEmojiBoldsL, noEmojiBoldsD] at h ⊢
      have := ih h
      rw [heq] at this
      simp [noEmojiBoldsL, noEmojiBoldsD] at this
      exact this
  | case4 s rest hs hne ih =>
      intro h
      simp only [normalizeTexts, hs, if_false, ite_false]
      simp [noEmojiBoldsL, noEmojiBoldsD] at h
      have := ih h
      rcases hr : normalizeTexts rest with _ | ⟨d, r2⟩
      · simp [noEmojiBoldsL, noEmojiBoldsD]
      · rw [hr] at this
        cases d with
        | textN u => exact absurd hr (hne u r2)
        | boldR u => simpa [noEmojiBoldsL, noEmojiBoldsD] using this
        | elemN u st ex cs => simpa [noEmojiBoldsL, noEmojiBoldsD] using this
  | case5 d rest hd ih =>
      intro h
      cases d with
      | textN s => exact absurd rfl (hd s)
      | boldR s =>
          simp [noEmojiBoldsL] at h
          simp [normalizeTexts, noEmojiBoldsL, h.1, ih h.2]
      | elemN t st ex cs =>
          simp [noEmojiBoldsL, noEmojiBoldsD] at h
          simp [normalizeTexts, noEmojiBoldsL, noEmojiBoldsD, h.1, ih h.2]

theorem neb_renderWordNodes (bm : String) (w : List Char)
    (h : ∀ c ∈ w, emojiPat c = false) :
    noEmojiBoldsL (renderWordNodes bm w) = true := by
  have hall : ∀ k, (List.take k (jsTrim w)).all (fun c => ! emojiPat c) = true := by
    intro k
    rw [List.all_eq_true]
    intro c hc
    have : c ∈ jsTrim w := List.mem_of_mem_take hc
    simp [h c (mem_of_mem_jsTrim this)]
  unfold renderWordNodes
  by_cases h1 : (jsTrim w).length < 2
  · simp [h1, noEmojiBoldsL, noEmojiBoldsD]
  · by_cases h2 : bm = "start"
    · simp [h1, h2, noEmojiBoldsL, noEmojiBoldsD, hall]
    · by_cases h3 : bm = "half"
      · simp [h1, h2, h3, noEmojiBoldsL, noEmojiBoldsD, hall]
      · simp [h1, h2, h3, noEmojiBoldsL, noEmojiBoldsD, hall]

theorem neb_wordNode (bm : String) (w : List Char)
    (h : ∀ c ∈ w, emojiPat c = false) :
    noEmojiBoldsL (wordNode bm w) = true := by
  unfold wordNode
  by_cases hw : w.any (fun c => ! jsWs c) = true
  · rw [if_pos hw]; exact neb_renderWordNodes bm w h
  · rw [if_neg hw]; rfl

theorem neb_tokensNodes (bm : String) (seg : List Char)
    (h : ∀ c ∈ seg, emojiPat c = false) :
    ∀ L : List (List Char), (∀ w ∈ L, ∀ c ∈ w, c ∈ seg) →
    noEmojiBoldsL (tokensNodes bm L) = true := by
  intro L
  induction L with
  | nil => intro _; rfl
  | cons w ws ih =>
      intro hsub
      rw [tokensNodes, neb_appendL,
        neb_wordNode bm w (fun c hc => h c (hsub w (List.mem_cons_self _ _) c hc)),
        ih (fun v hv c hc => hsub v (List.mem_cons_of_mem _ hv) c hc)]
      rfl

theorem neb_segNodes (bm : String) (seg : List Char) :
    noEmojiBoldsL (segNodes bm seg) = true := by
  unfold segNodes
  by_cases h : seg.any emojiPat = true
  · simp [h, noEmojiBoldsL, noEmojiBoldsD]
  · rw [if_neg h]
    have hne : ∀ c ∈ seg, emojiPat c = false := by
      intro c hc
      by_contra hcc
      exact h (List.any_eq_true.mpr ⟨c, hc, by simpa using hcc⟩)
    apply neb_tokensNodes bm seg hne
    intro w hw c hc
    rw [← tokens_join seg]
    exact List.mem_flatten.mpr ⟨w, hw, hc⟩

theorem neb_segsNodes (bm : String) : ∀ L : List (List Char),
    noEmojiBoldsL (segsNodes bm L) = true := by
  intro L
  induction L with
  | nil => rfl
  | cons s ss ih =>
      rw [segsNodes, neb_appendL, neb_segNodes, ih]
      rfl

theorem neb_transformTextNodes (bm : String) (t : List Char) :
    noEmojiBoldsL (transformTextNodes bm t) = true := by
  unfold transformTextNodes
  exact neb_normalizeTexts _ (neb_segsNodes bm _)

/-- C8 (code bug). `<` (U+003C) is a `Symbol` code point, so the
segmentation splits it out as its own pass-through segment — but the
reassembled string is then re-parsed through `tempDiv.innerHTML`, where a
raw `<` followed by a letter, as in the run `"x<y"`, is consumed as a
start tag: the symbol code point is destroyed rather than left unmodified
in the output, contrary to the claim (and to the code's own comment that
pattern characters are preserved unchanged). The theorem evaluates the
code at the failing input: `<` is in the pattern class, the split isolates
it, and the rendered string reaching the HTML parser is the raw `"x<y"`. -/
theorem c8_symbol_not_preserved :
    emojiPat '<' = true
    ∧ splitEmoji (str "x<y") = [str "x", str "<", str "y"]
    ∧ renderedStr "half" (str "x<y") = str "x<y" := ⟨rfl, rfl, rfl⟩

/-! ### C4: container status versus transformed runs -/





/-- C4 counterexample. Startup (mode `'on'`) tags the paragraph `inactive`;
a transform of the body replaces its text node `"a"` (with identical plain
text, producing no span) and still promotes the paragraph to `active`. The
reachable result has an `active` candidate container with no transformed
run under it, refuting the claimed invariant. -/
theorem c4_counterexample :
    Reachable ⟨"on", "half", renderAtDoc "on" "half" [] (initQR c4d0)⟩
    ∧ invC4 (renderAtDoc "on" "half" [] (initQR c4d0)) = false
    ∧ statusAt [0, 0, 0] (renderAtDoc "on" "half" [] (initQR c4d0)) =
        some CStatus.active
    ∧ containsBoldD (renderAtDoc "on" "half" [] (initQR c4d0)) = false := by
  refine ⟨Reachable.step (Reachable.init c4d0 "on" "half" (by rfl) (by rfl))
    (Step.transform ⟨"on", "half", initQR c4d0⟩ [] rfl), by rfl, by rfl, by rfl⟩

theorem p1D_boldR (ctx : Option CStatus) (s : List Char)
    (h : ctx ≠ some CStatus.inactive) : p1D ctx (.boldR s) = true := by
  cases ctx with
  | none => rfl
  | some st => cases st with
    | untagged => rfl
    | inactive => exact absurd rfl h
    | active => rfl

theorem p1D_textN (ctx : Option CStatus) (s : List Char) :
    p1D ctx (.textN s) = true := rfl

theorem p1L_append (ctx : Option CStatus) : ∀ a b : DomList,
    p1L ctx (appendL a b) = (p1L ctx a && p1L ctx b) := by
  have h := domListInd (Q := fun a => ∀ b,
    p1L ctx (appendL a b) = (p1L ctx a && p1L ctx b))
    (fun b => by simp [appendL, p1L])
    (fun d ds ih b => by simp [appendL, p1L, ih b, Bool.and_assoc])
  exact h

theorem p1_of_noBold :
    (∀ d, containsBoldD d = false → ∀ ctx, p1D ctx d = true) ∧
    (∀ l, containsBoldL l = false → ∀ ctx, p1L ctx l = true) := by
  apply domInd
  · intro s _ ctx; rfl
  · intro s h; simp [containsBoldD] at h
  · intro t st ex cs ih h ctx
    rw [containsBoldD] at h
    cases st <;> simp [p1D, ih h]
  · intro _ ctx; rfl
  · intro d ds ihd ihds h ctx
    rw [containsBoldL] at h
    simp at h
    simp [p1L, ihd h.1, ihds h.2]

theorem p1_renderWordNodes (bm : String) (w : List Char)
    (ctx : Option CStatus) (h : ctx ≠ some CStatus.inactive) :
    p1L ctx (renderWordNodes bm w) = true := by
  unfold renderWordNodes
  by_cases h1 : (jsTrim w).length < 2
  · simp [h1, p1L, p1D]
  · by_cases h2 : bm = "start"
    · simp [h1, h2, p1L, p1D_boldR _ _ h, p1D_textN]
    · by_cases h3 : bm = "half"
      · simp [h1, h2, h3, p1L, p1D_boldR _ _ h, p1D_textN]
      · simp [h1, h2, h3, p1L, p1D_boldR _ _ h, p1D_textN]

theorem p1_wordNode (bm : String) (w : List Char)
    (ctx : Option CStatus) (h : ctx ≠ some CStatus.inactive) :
    p1L ctx (wordNode bm w) = true := by
  unfold wordNode
  by_cases hw : w.any (fun c => ! jsWs c) = true
  · rw [if_pos hw]; exact p1_renderWordNodes bm w ctx h
  · rw [if_neg hw]; rfl

theorem p1_tokensNodes (bm : String) (ctx : Option CStatus)
    (h : ctx ≠ some CStatus.inactive) : ∀ L : List (List Char),
    p1L ctx (tokensNodes bm L) = true := by
  intro L
  induction L with
  | nil => rfl
  | cons w ws ih =>
      rw [tokensNodes, p1L_append, p1_wordNode bm w ctx h, ih]
      rfl

theorem p1_segsNodes (bm : String) (ctx : Option CStatus)
    (h : ctx ≠ some CStatus.inactive) : ∀ L : List (List Char),
    p1L ctx (segsNodes bm L) = true := by
  intro L
  induction L with
  | nil => rfl
  | cons s ss ih =>
      rw [segsNodes, p1L_append, ih]
      have hseg : p1L ctx (segNodes bm s) = true := by
        unfold segNodes
        by_cases he : s.any emojiPat = true
        · simp [he, p1L, p1D]
        · rw [if_neg he]; exact p1_tokensNodes bm ctx h (tokens s)
      rw [hseg]
      rfl

theorem p1_normalizeTexts (ctx : Option CStatus) : ∀ l : DomList,
    p1L ctx l = true → p1L ctx (normalizeTexts l) = true := by
  intro l
  induction l using normalizeTexts.induct with
  | case1 => intro _; rfl
  | case2 rest ih =>
      intro h
      simp [normalizeTexts, p1L, p1D] at h ⊢
      exact ih h
  | case3 s rest hs t r2 heq ih =>
      intro h
      simp only [normalizeTexts, hs, if_false, ite_false, heq]
      simp [p1L, p1D] at h ⊢
      have := ih h
      rw [heq] at this
      simp [p1L, p1D] at this
      exact this
  | case4 s rest hs hne ih =>
      intro h
      simp only [normalizeTexts, hs, if_false, ite_false]
      simp [p1L, p1D] at h
      have := ih h
      rcases hr : normalizeTexts rest with _ | ⟨d, r2⟩
      · simp [p1L, p1D]
      · rw [hr] at this
        cases d with
        | textN u => exact absurd hr (hne u r2)
        | boldR u => simpa [p1L, p1D_textN] using this
        | elemN u st ex cs => simpa [p1L, p1D_textN] using this
  | case5 d rest hd ih =>
      intro h
      cases d with
      | textN s => exact absurd rfl (hd s)
      | boldR s =>
          simp [p1L] at h
          simp [normalizeTexts, p1L, h.1, ih h.2]
      | elemN t st ex cs =>
          simp [p1L] at h
          simp [normalizeTexts, p1L, h.1, ih h.2]

theorem p1_transformTextNodes (bm : String) (t : List Char)
    (ctx : Option CStatus) (h : ctx ≠ some CStatus.inactive) :
    p1L ctx (transformTextNodes bm t) = true := by
  unfold transformTextNodes
  exact p1_normalizeTexts ctx _ (p1_segsNodes bm ctx h _)

theorem p1D_elem_untagged (ctx : Option CStatus) (t : String) (ex : Bool)
    (cs : DomList) : p1D ctx (.elemN t .untagged ex cs) = p1L ctx cs := rfl

theorem p1D_elem_inactive (ctx : Option CStatus) (t : String) (ex : Bool)
    (cs : DomList) :
    p1D ctx (.elemN t .inactive ex cs) = p1L (some .inactive) cs := rfl

theorem p1D_elem_active (ctx : Option CStatus) (t : String) (ex : Bool)
    (cs : DomList) :
    p1D ctx (.elemN t .active ex cs) = p1L (some .active) cs := rfl

theorem p1_proc (rm bm : String) :
    (∀ d, ∀ ue : Bool, containsBoldD d = false →
      (∀ ctx, ctx ≠ some CStatus.inactive →
        p1L ctx (procNode rm bm ue d).1 = true)
      ∧ ((procNode rm bm ue d).2 = false →
        ∀ ctx, p1L ctx (procNode rm bm ue d).1 = true)) ∧
    (∀ l, ∀ ue : Bool, containsBoldL l = false →
      (∀ ctx, ctx ≠ some CStatus.inactive →
        p1L ctx (procList rm bm ue l).1 = true)
      ∧ ((procList rm bm ue l).2 = false →
        ∀ ctx, p1L ctx (procList rm bm ue l).1 = true)) := by
  apply domInd
  · intro s ue _
    simp only [procNode]
    split_ifs with hrm hskip
    · exact ⟨fun ctx _ => by simp [p1L, p1D_textN],
        fun _ ctx => by simp [p1L, p1D_textN]⟩
    · refine ⟨fun ctx hctx => p1_transformTextNodes bm s ctx hctx, fun hf ctx => ?_⟩
      simp at hf
    · exact ⟨fun ctx _ => by simp [p1L, p1D_textN],
        fun _ ctx => by simp [p1L, p1D_textN]⟩
  · intro s ue h; simp [containsBoldD] at h
  · intro t st ex cs ih ue h
    rw [containsBoldD] at h
    simp only [procNode, h, Bool.false_eq_true, if_false, ite_false]
    have IH := ih (ue || ex) h
    cases st with
    | untagged =>
        refine ⟨fun ctx hctx => ?_, fun hf ctx => ?_⟩
        · simp [p1L, p1D_elem_untagged]
          exact IH.1 ctx hctx
        · simp at hf
          simp [p1L, p1D_elem_untagged]
          exact IH.2 hf ctx
    | inactive =>
        by_cases hr2 : (procList rm bm (ue || ex) cs).2 = true
        · refine ⟨fun ctx hctx => ?_, fun _ ctx => ?_⟩ <;>
            · simp [hr2, p1L, p1D_elem_active]
              exact IH.1 (some .active) (by simp)
        · have hf : (procList rm bm (ue || ex) cs).2 = false := by
            simpa using hr2
          refine ⟨fun ctx hctx => ?_, fun _ ctx => ?_⟩ <;>
            · simp [hr2, p1L, p1D_elem_inactive]
              exact IH.2 hf (some .inactive)
    | active =>
        by_cases hr2 : (procList rm bm (ue || ex) cs).2 = true
        · refine ⟨fun ctx hctx => ?_, fun _ ctx => ?_⟩ <;>
            · simp [hr2, p1L, p1D_elem_active]
              exact IH.1 (some .active) (by simp)
        · have hf : (procList rm bm (ue || ex) cs).2 = false := by
            simpa using hr2
          refine ⟨fun ctx hctx => ?_, fun _ ctx => ?_⟩ <;>
            · simp [hr2, p1L, p1D_elem_active]
              exact IH.2 hf (some .active)
  · intro ue _; exact ⟨fun ctx _ => rfl, fun _ ctx => rfl⟩
  · intro d ds ihd ihds ue h
    rw [containsBoldL] at h
    simp at h
    have IHd := ihd ue h.1
    have IHds := ihds ue h.2
    refine ⟨fun ctx hctx => ?_, fun hf ctx => ?_⟩
    · simp [procList, p1L_append, IHd.1 ctx hctx, IHds.1 ctx hctx]
    · simp [procList] at hf
      simp [procList, p1L_append, IHd.2 hf.1 ctx, IHds.2 hf.2 ctx]

theorem p1_renderTargetD (rm bm : String) (ue : Bool) (d : Dom)
    (h : containsBoldD d = false) :
    (∀ ctx, ctx ≠ some CStatus.inactive →
      p1D ctx (renderTargetD rm bm ue d).1 = true)
    ∧ ((renderTargetD rm bm ue d).2 = false →
      ∀ ctx, p1D ctx (renderTargetD rm bm ue d).1 = true) := by
  cases d with
  | textN s => exact ⟨fun ctx _ => rfl, fun _ ctx => rfl⟩
  | boldR s => simp [containsBoldD] at h
  | elemN t st ex cs =>
      rw [renderTargetD]
      split_ifs with hg
      · obtain ⟨d', f, heq⟩ := procNode_elem_shape rm bm ue t st ex cs
        have hp := (p1_proc rm bm).1 (.elemN t st ex cs) ue h
        rw [heq] at hp
        constructor
        · intro ctx hctx
          have h1 := hp.1 ctx hctx
          simp [p1L] at h1
          simpa [heq, firstOr] using h1
        · intro hf ctx
          rw [heq] at hf
          simp at hf
          have h1 := hp.2 (by simp [hf]) ctx
          simp [p1L] at h1
          simpa [heq, firstOr] using h1
      · exact ⟨fun ctx _ => p1_of_noBold.1 _ h ctx,
          fun _ ctx => p1_of_noBold.1 _ h ctx⟩

theorem containsBold_getIdx : ∀ (cs : DomList) {i : Nat} {c : Dom},
    containsBoldL cs = false → getIdx cs i = some c →
    containsBoldD c = false := by
  have h := domListInd (Q := fun cs => ∀ {i : Nat} {c : Dom},
    containsBoldL cs = false → getIdx cs i = some c → containsBoldD c = false)
    ?_ ?_
  · exact h
  · intro i c _ hg
    cases i <;> simp [getIdx] at hg
  · intro d ds ih i c h hg
    rw [containsBoldL] at h
    simp at h
    cases i with
    | zero => simp [getIdx] at hg; subst hg; exact h.1
    | succ n => simp [getIdx] at hg; exact ih h.2 hg

theorem p1L_setIdx : ∀ (cs : DomList) {i : Nat} (x : Dom)
    (ctx : Option CStatus), containsBoldL cs = false → p1D ctx x = true →
    p1L ctx (setIdx cs i x) = true := by
  have h := domListInd (Q := fun cs => ∀ {i : Nat} (x : Dom)
    (ctx : Option CStatus), containsBoldL cs = false → p1D ctx x = true →
    p1L ctx (setIdx cs i x) = true)
    ?_ ?_
  · exact h
  · intro i x ctx _ _
    cases i <;> rfl
  · intro d ds ih i x ctx h hx
    rw [containsBoldL] at h
    simp at h
    cases i with
    | zero => simp [setIdx, p1L, hx, p1_of_noBold.2 ds h.2 ctx]
    | succ n =>
        simp [setIdx, p1L, p1_of_noBold.1 d h.1 ctx, ih x ctx h.2 hx]

theorem p1_renderAtAux (rm bm : String) : ∀ (path : List Nat) (ue : Bool) (d : Dom),
    containsBoldD d = false →
    (∀ ctx, ctx ≠ some CStatus.inactive →
      p1D ctx (renderAtAux rm bm ue path d).1 = true)
    ∧ ((renderAtAux rm bm ue path d).2 = false →
      ∀ ctx, p1D ctx (renderAtAux rm bm ue path d).1 = true) := by
  intro path
  induction path with
  | nil => intro ue d h; exact p1_renderTargetD rm bm ue d h
  | cons i rest ih =>
      intro ue d h
      cases d with
      | textN s => exact ⟨fun ctx _ => rfl, fun _ ctx => rfl⟩
      | boldR s => simp [containsBoldD] at h
      | elemN t st ex cs =>
          rw [containsBoldD] at h
          rw [renderAtAux]
          cases hg : getIdx cs i with
          | none =>
              have hnb : containsBoldD (Dom.elemN t st ex cs) = false := by
                rw [containsBoldD]; exact h
              exact ⟨fun ctx _ => p1_of_noBold.1 _ hnb ctx,
                fun _ ctx => p1_of_noBold.1 _ hnb ctx⟩
          | some c =>
              have hc : containsBoldD c = false := containsBold_getIdx cs h hg
              have IH := ih (ue || ex) c hc
              cases st with
              | untagged =>
                  refine ⟨fun ctx hctx => ?_, fun hf ctx => ?_⟩
                  · simp [p1D_elem_untagged]
                    exact p1L_setIdx cs _ ctx h (IH.1 ctx hctx)
                  · simp at hf
                    simp [p1D_elem_untagged]
                    exact p1L_setIdx cs _ ctx h (IH.2 hf ctx)
              | inactive =>
                  by_cases hr2 : (renderAtAux rm bm (ue || ex) rest c).2 = true
                  · refine ⟨fun ctx hctx => ?_, fun _ ctx => ?_⟩ <;>
                      · simp [hr2, p1D_elem_active]
                        exact p1L_setIdx cs _ _ h (IH.1 (some .active) (by simp))
                  · have hf : (renderAtAux rm bm (ue || ex) rest c).2 = false := by
                      simpa using hr2
                    refine ⟨fun ctx hctx => ?_, fun _ ctx => ?_⟩ <;>
                      · simp [hr2, p1D_elem_inactive]
                        exact p1L_setIdx cs _ _ h (IH.2 hf (some .inactive))
              | active =>
                  by_cases hr2 : (renderAtAux rm bm (ue || ex) rest c).2 = true
                  · refine ⟨fun ctx hctx => ?_, fun _ ctx => ?_⟩ <;>
                      · simp [hr2, p1D_elem_active]
                        exact p1L_setIdx cs _ _ h (IH.1 (some .active) (by simp))
                  · have hf : (renderAtAux rm bm (ue || ex) rest c).2 = false := by
                      simpa using hr2
                    refine ⟨fun ctx hctx => ?_, fun _ ctx => ?_⟩ <;>
                      · simp [hr2, p1D_elem_active]
                        exact p1L_setIdx cs _ _ h (IH.2 hf (some .active))

/-- C4 as amended: part 1 of the invariant is established by a transform —
starting from a document with no processed span, after `renderElement`
every generated span whose nearest tagged ancestor exists has that
ancestor Active. Part 2 fails in reachable states (see the counterexample):
promotion fires for every replaced text node even when no emphasis results,
so an Active candidate container need not have a transformed run under it;
and a later enabled-mode notification re-tags Active containers Inactive
under existing spans, so neither part survives arbitrary later operations. -/
theorem c4_transform_invariant (bm : String) (path : List Nat) (d : Dom)
    (h : containsBoldD d = false) :
    p1D none (renderAtDoc "on" bm path d) = true :=
  (p1_renderAtAux "on" bm path false d h).1 none (by simp)


/-- C4 amended witness: transforming the tagged page produces spans whose
nearest tagged ancestor (the paragraph) is Active. -/
theorem c4_transform_invariant_witness :
    containsBoldD (initQR c4w) = false
    ∧ p1D none (renderAtDoc "on" "half" [] (initQR c4w)) = true
    ∧ containsBoldD (renderAtDoc "on" "half" [] (initQR c4w)) = true
    ∧ statusAt [0, 0, 0] (renderAtDoc "on" "half" [] (initQR c4w)) =
        some CStatus.active :=
  ⟨by decide, c4_transform_invariant "half" [] (initQR c4w) (by decide),
   by decide, by decide⟩

/-- Sanity anchor: the spec's Scenario A. -/
example : transformTextNodes "half" (str "hello world") =
    .cons (.boldR (str "hel")) (.cons (.textN (str "lo "))
      (.cons (.boldR (str "wor")) (.cons (.textN (str "ld")) .nil))) := by
  rfl

/-- Sanity anchor: the Unicode segmentation example. -/
example : transformTextNodes "half" (str "ab 😀 cd") =
    .cons (.boldR (str "a")) (.cons (.textN (str "b 😀 "))
      (.cons (.boldR (str "c")) (.cons (.textN (str "d")) .nil))) := by
  rfl

end QuickReader
